import Mathlib

/-!
# Verification of the `leptos_server_signal` synchronization core

A shallow embedding of the server-signal synchronization protocol:

* the JSON value model and the JSON-patch diff/apply codec used on the wire
  (the Diff Codec of the spec; its implementation lives in the external
  `json_patch` crate, so it is modelled from the spec's contract),
* the wire update `ServerSignalUpdate` (`src/lib.rs`),
* the server-side channel `ServerSignal` with its `with` mutation
  (`src/axum.rs` / `src/actix.rs`),
* the client-side registry: `create_server_signal` registration, the
  `onmessage` handler with its delayed-update queue, and the reconnect
  timeout handler (`src/lib.rs`, wasm32 branch).
-/

set_option maxHeartbeats 1000000

namespace ServerSignalSpec

/-- The JSON value model used by `serde_json::Value`: null, bool, number,
string, ordered array, and object. `serde_json`'s default `Map` is a
`BTreeMap<String, Value>`, so an object is modelled as an association list
that is well-formed when its keys are strictly increasing (see `jwf`).
Numbers are modelled as integers (the counter example uses `i32`). -/
inductive Json where
  | null : Json
  | bool (b : Bool) : Json
  | num (n : Int) : Json
  | str (s : String) : Json
  | arr (xs : List Json) : Json
  | obj (fields : List (String × Json)) : Json

/-- One token of an RFC 6902 JSON pointer: an object key or an array index. -/
inductive Step where
  | key (k : String) : Step
  | idx (i : Nat) : Step
  deriving DecidableEq

/-- A JSON pointer path: a sequence of keys/indices from the document root. -/
abbrev Path := List Step

/-- A primitive JSON-patch operation (the subset `json_patch::diff` emits:
add / remove / replace at a path). -/
inductive Op where
  | add (path : Path) (value : Json) : Op
  | remove (path : Path) : Op
  | replace (path : Path) (value : Json) : Op

mutual

/-- Structural equality of JSON values (`PartialEq` on `serde_json::Value`;
object equality is map equality, which on the sorted association lists of the
model is structural equality). -/
def jeq : Json → Json → Bool
  | .null, .null => true
  | .bool x, .bool y => x == y
  | .num x, .num y => x == y
  | .str x, .str y => x == y
  | .arr xs, .arr ys => jeqL xs ys
  | .obj fs, .obj gs => jeqO fs gs
  | _, _ => false

/-- Elementwise equality of JSON arrays. -/
def jeqL : List Json → List Json → Bool
  | [], [] => true
  | x :: xs, y :: ys => jeq x y && jeqL xs ys
  | _, _ => false

/-- Entrywise equality of JSON object field lists. -/
def jeqO : List (String × Json) → List (String × Json) → Bool
  | [], [] => true
  | (k, v) :: fs, (k', v') :: gs => k == k' && jeq v v' && jeqO fs gs
  | _, _ => false

end

/-- A JSON patch: an ordered sequence of operations
(`json_patch::Patch`). -/
abbrev Patch := List Op

/-- The path of an operation. -/
def Op.path : Op → Path
  | .add p _ => p
  | .remove p => p
  | .replace p _ => p

/-- Prepend one pointer token to an operation's path (used when a diff of a
child value is reported relative to the parent document). -/
def Op.prepend (s : Step) : Op → Op
  | .add p v => .add (s :: p) v
  | .remove p => .remove (s :: p)
  | .replace p v => .replace (s :: p) v

/-- An operation that can be transported into a child position: `add` and
`remove` never target the root. Every operation a diff emits satisfies
this. -/
def Op.rootSafe : Op → Prop
  | .add p _ => p ≠ []
  | .remove p => p ≠ []
  | .replace _ _ => True

/-- Look up a key in an object's field list (`BTreeMap::get`). -/
def objGet (k : String) : List (String × Json) → Option Json
  | [] => none
  | (k', v) :: fs => if k = k' then some v else objGet k fs

/-- Replace the value stored at an existing key, leaving the list unchanged
if the key is absent (writing back a mutated child, `map[k] = v`). -/
def objSet (k : String) (v : Json) : List (String × Json) → List (String × Json)
  | [] => []
  | (k', v') :: fs => if k = k' then (k, v) :: fs else (k', v') :: objSet k v fs

/-- Insert-or-replace in key order (`BTreeMap::insert`); this is the
semantics of JSON-patch `add` on an object member. -/
def objInsert (k : String) (v : Json) : List (String × Json) → List (String × Json)
  | [] => [(k, v)]
  | (k', v') :: fs =>
    if k < k' then (k, v) :: (k', v') :: fs
    else if k = k' then (k, v) :: fs
    else (k', v') :: objInsert k v fs

/-- Remove a key from an object; fails when the key is absent
(JSON-patch `remove` requires the target to exist). -/
def objRemove (k : String) : List (String × Json) → Option (List (String × Json))
  | [] => none
  | (k', v') :: fs =>
    if k = k' then some fs
    else (objRemove k fs).map ((k', v') :: ·)

/-- Insert an element at an index of a list (JSON-patch `add` on an array;
the caller checks `i ≤ length`). -/
def listIns (v : Json) : Nat → List Json → List Json
  | 0, xs => v :: xs
  | _ + 1, [] => [v]
  | n + 1, x :: xs => x :: listIns v n xs

/-- Delete the element at an index of a list (JSON-patch `remove` on an
array; the caller checks `i < length`). -/
def listDel : Nat → List Json → List Json
  | _, [] => []
  | 0, _ :: xs => xs
  | n + 1, x :: xs => x :: listDel n xs

/-- JSON-patch `add`: navigate the path and insert the value; `add` at the
root replaces the whole document. Fails when an intermediate node is
missing or the final index is out of bounds. -/
def addAt : Json → Path → Json → Option Json
  | _, [], v => some v
  | .obj fs, .key k :: rest, v =>
    match rest with
    | [] => some (.obj (objInsert k v fs))
    | _ :: _ => (objGet k fs).bind fun c =>
        (addAt c rest v).map fun c' => .obj (objSet k c' fs)
  | .arr xs, .idx i :: rest, v =>
    match rest with
    | [] => if i ≤ xs.length then some (.arr (listIns v i xs)) else none
    | _ :: _ => xs[i]?.bind fun c =>
        (addAt c rest v).map fun c' => .arr (xs.set i c')
  | _, _, _ => none

/-- JSON-patch `remove`: navigate the path and delete the target; removing
the root or a missing target fails. -/
def removeAt : Json → Path → Option Json
  | _, [] => none
  | .obj fs, [.key k] => (objRemove k fs).map .obj
  | .obj fs, .key k :: rest => (objGet k fs).bind fun c =>
      (removeAt c rest).map fun c' => .obj (objSet k c' fs)
  | .arr xs, [.idx i] => if i < xs.length then some (.arr (listDel i xs)) else none
  | .arr xs, .idx i :: rest => xs[i]?.bind fun c =>
      (removeAt c rest).map fun c' => .arr (xs.set i c')
  | _, _ => none

/-- JSON-patch `replace`: navigate the path and replace the target, which
must exist; replacing the root always succeeds. -/
def replaceAt : Json → Path → Json → Option Json
  | _, [], v => some v
  | .obj fs, .key k :: rest, v =>
    match rest with
    | [] => (objGet k fs).map fun _ => .obj (objSet k v fs)
    | _ :: _ => (objGet k fs).bind fun c =>
        (replaceAt c rest v).map fun c' => .obj (objSet k c' fs)
  | .arr xs, .idx i :: rest, v =>
    match rest with
    | [] => if i < xs.length then some (.arr (xs.set i v)) else none
    | _ :: _ => xs[i]?.bind fun c =>
        (replaceAt c rest v).map fun c' => .arr (xs.set i c')
  | _, _, _ => none

/-- Apply one JSON-patch operation to a document. -/
def applyOp (doc : Json) : Op → Option Json
  | .add p v => addAt doc p v
  | .remove p => removeAt doc p
  | .replace p v => replaceAt doc p v

/-- Apply a patch, operation by operation, failing as soon as one operation
fails (`json_patch::patch` is atomic, and the client wraps it in `unwrap`,
so a failure is a panic — modelled by `none`). -/
def applyPatch (doc : Json) : Patch → Option Json
  | [] => some doc
  | op :: ops => (applyOp doc op).bind (applyPatch · ops)

/-- Apply a list of patches in order (the drain loop over
`delayed_patches` in the `onmessage` callback). -/
def applyPatches (doc : Json) : List Patch → Option Json
  | [] => some doc
  | p :: ps => (applyPatch doc p).bind (applyPatches · ps)

mutual

/-- Modelled from the spec: `json_patch::diff` over two JSON values. The
implementation lives in the external `json-patch` crate, not under `src/`;
per §4.1 of the spec it "produces a sequence of primitive operations
(add/remove/replace at a path, each path being a sequence of keys/indices)
sufficient to transform one tree into the other". Objects recurse on common
keys, add right-only keys and remove left-only keys (a key-order merge of the
two sorted field lists); arrays recurse positionally, then remove the left
tail or add the right tail; any other unequal pair is a replace. -/
def diffV : Json → Json → List Op
  | .arr xs, .arr ys => diffA 0 xs ys
  | .obj fs, .obj gs => diffO fs gs
  | a, b => if jeq a b then [] else [.replace [] b]

/-- Array part of the diff: `i` is the absolute index of the current
position in the array being compared. -/
def diffA (i : Nat) : List Json → List Json → List Op
  | [], [] => []
  | [], y :: ys => .add [.idx i] y :: diffA (i + 1) [] ys
  | _ :: xs, [] => .remove [.idx i] :: diffA i xs []
  | x :: xs, y :: ys => (diffV x y).map (.prepend (.idx i)) ++ diffA (i + 1) xs ys

/-- Object part of the diff: a merge of the two key-sorted field lists. -/
def diffO : List (String × Json) → List (String × Json) → List Op
  | [], [] => []
  | [], (k, v) :: gs => .add [.key k] v :: diffO [] gs
  | (k, _) :: fs, [] => .remove [.key k] :: diffO fs []
  | (k₁, v₁) :: fs, (k₂, v₂) :: gs =>
    if k₁ = k₂ then (diffV v₁ v₂).map (.prepend (.key k₁)) ++ diffO fs gs
    else if k₁ < k₂ then .remove [.key k₁] :: diffO fs ((k₂, v₂) :: gs)
    else .add [.key k₂] v₂ :: diffO ((k₁, v₁) :: fs) gs

end

mutual

/-- Well-formedness of a JSON value as the image of a `serde_json::Value`:
every object's keys are strictly increasing (the iteration order of
`BTreeMap<String, Value>`), recursively. -/
def jwf : Json → Bool
  | .null => true
  | .bool _ => true
  | .num _ => true
  | .str _ => true
  | .arr xs => jwfL xs
  | .obj fs => jwfO fs

/-- All elements of an array are well-formed. -/
def jwfL : List Json → Bool
  | [] => true
  | x :: xs => jwf x && jwfL xs

/-- Field list well-formedness: values well-formed and keys strictly
increasing. -/
def jwfO : List (String × Json) → Bool
  | [] => true
  | (k, v) :: fs =>
    jwf v && jwfO fs &&
      (match fs with
       | [] => true
       | (k', _) :: _ => decide (k < k'))

end

/-! ## Wire update (`src/lib.rs`, `ServerSignalUpdate`) -/

/-- `ServerSignalUpdate` (src/lib.rs:30-33): the wire record pairing the
signal name with a JSON patch. -/
structure ServerSignalUpdate where
  name : String
  patch : Patch

/-- `ServerSignalUpdate::new_from_json` (src/lib.rs:55-61): builds the update
from two JSON values with `json_patch::diff(old, new)`. -/
def ServerSignalUpdate.new_from_json (name : String) (old new : Json) : ServerSignalUpdate :=
  { name := name, patch := diffV old new }

/-! ## Server-side channel (`src/axum.rs` / `src/actix.rs`, `ServerSignal`) -/

/-- The server-side error enum (src/axum.rs:96-103 / src/actix.rs:99-106). -/
inductive Error where
  | serializationFailed : Error
  | webSocket : Error
  deriving DecidableEq

/-- `ServerSignal<T>` (src/axum.rs:14-18): the server-owned value together
with the JSON snapshot of the last state from which a diff was produced.
(The actix variant additionally stores the session handle; the session is
modelled as the `sendOk` argument of `with'`.) -/
structure ServerSignal (T : Type) where
  name : String
  value : T
  json_value : Json

/-- `ServerSignal::new` (src/axum.rs:24-33): initializes `value` to
`T::default()` (the explicit `dflt` argument) and `json_value` to its
serialization (`encode` plays the role of `serde_json::to_value`, which is
modelled as total, so the `Ok` branch is the only one). -/
def ServerSignal.new (name : String) (dflt : T) (encode : T → Json) : ServerSignal T :=
  { name := name, value := dflt, json_value := encode dflt }

/-- `ServerSignal::with` (src/axum.rs:47-67 / src/actix.rs:49-61), written
`with'` because `with` is reserved in Lean. In source order: the closure `f`
mutates `value`; the new state is serialized; the update is built by diffing
the stored `json_value` against the new serialization; the update is written
to the sink. `sendOk` models whether `sink.send` succeeds. On success the
update is transmitted, `json_value` is assigned the new serialization, and
`Ok` is returned; on failure the function returns `Err(Error::WebSocket(..))`
early, so nothing is transmitted and `json_value` keeps its old snapshot,
while the mutation of `value` stays. Returns (new signal state, envelopes
written to the sink, caller-visible result). -/
def ServerSignal.with' (encode : T → Json) (sendOk : Bool) (f : T → T)
    (s : ServerSignal T) :
    ServerSignal T × List ServerSignalUpdate × Except Error Unit :=
  let value' := f s.value
  let newJson := encode value'
  let update := ServerSignalUpdate.new_from_json s.name s.json_value newJson
  if sendOk then
    ({ name := s.name, value := value', json_value := newJson }, [update], .ok ())
  else
    ({ name := s.name, value := value', json_value := s.json_value }, [],
      .error .webSocket)

/-- A sequence of `with` calls whose sends all succeed: the final signal
state and the envelopes transmitted, in order. -/
def serverRun (encode : T → Json) (s : ServerSignal T) :
    List (T → T) → ServerSignal T × List ServerSignalUpdate
  | [] => (s, [])
  | f :: fs =>
    let r := s.with' encode true f
    let rest := serverRun encode r.1 fs
    (rest.1, r.2.1 ++ rest.2)

/-! ## Client-side registry (`src/lib.rs`, wasm32 branch) -/

/-- Look up a key in a hash map modelled as an association list
(`HashMap::get`). -/
def mapGet (k : String) : List (String × α) → Option α
  | [] => none
  | (k', v) :: m => if k = k' then some v else mapGet k m

/-- Insert-or-replace (`HashMap::insert`; also the effect of writing a new
value into the `RwSignal` stored under a key). -/
def mapInsert (k : String) (v : α) : List (String × α) → List (String × α)
  | [] => [(k, v)]
  | (k', v') :: m => if k = k' then (k, v) :: m else (k', v') :: mapInsert k v m

/-- Remove a key (`HashMap::remove`, discarding the returned value — the
value is read separately with `mapGet`). -/
def mapRemove (k : String) : List (String × α) → List (String × α)
  | [] => []
  | (k', v') :: m => if k = k' then m else (k', v') :: mapRemove k m

/-- The websocket connection object, reduced to the parts the reconnect
handler reads and writes: the url and the three event handlers (handlers
are modelled by an identity token). -/
structure WsConn where
  url : String
  onmessage : Option Nat
  onclose : Option Nat
  onerror : Option Nat

/-- `ServerSignalWebSocket` (src/lib.rs:199-210): the connection wrapper
holding the registered replicas (`state_signals`) and the delayed update
queue (`delayed_updates`). -/
structure ServerSignalWebSocket where
  ws : WsConn
  state_signals : List (String × Json)
  delayed_updates : List (String × List Patch)

/-- `create_server_signal` (src/lib.rs:149-187, wasm32 branch): creates the
json signal initialized to `serde_json::to_value(T::default())` (the
`initJson` argument) and inserts it into `state_signals` under `name`.
Nothing else of the registry state is touched — in particular
`delayed_updates` is not read or written. -/
def create_server_signal (name : String) (initJson : Json)
    (st : ServerSignalWebSocket) : ServerSignalWebSocket :=
  { st with state_signals := mapInsert name initJson st.state_signals }

/-- The body of the `onmessage` callback of `provide_websocket_inner` from
the point where the frame text has been extracted (src/lib.rs:238-257; the
preceding `event.data().dyn_into::<JsString>().unwrap()` of line 237 is
modelled by `onmessageRaw`). The argument models the result of
`serde_json::from_str::<ServerSignalUpdate>` on the frame text:
`none` is a decode failure (`serde` returns `Err`; the callback has no
`else` branch, so the message is dropped). For a decoded update: if the name
is registered, `delayed_updates.remove(name)` drains any queued patches,
which are applied in order, followed by the update's own patch — each
application through `json_patch::patch(..).unwrap()`, whose panic is
modelled by the `none` result; if the name is not registered, the patch is
appended to the delayed queue and a warning is logged. Returns
`(new state, log lines)`, or `none` for a panic. -/
def onmessage (st : ServerSignalWebSocket) :
    Option ServerSignalUpdate → Option (ServerSignalWebSocket × List String)
  | none => some (st, [])
  | some upd =>
    match mapGet upd.name st.state_signals with
    | some doc =>
      let queued := (mapGet upd.name st.delayed_updates).getD []
      let delayed' := mapRemove upd.name st.delayed_updates
      match applyPatches doc queued with
      | none => none
      | some doc₁ =>
        match applyPatch doc₁ upd.patch with
        | none => none
        | some doc₂ =>
          some ({ st with state_signals := mapInsert upd.name doc₂ st.state_signals,
                          delayed_updates := delayed' }, [])
    | none =>
      let queued' := (mapGet upd.name st.delayed_updates).getD [] ++ [upd.patch]
      some ({ st with delayed_updates := mapInsert upd.name queued' st.delayed_updates },
            ["No local state for update to " ++ upd.name ++ ". Queuing patch."])

/-- Feed a sequence of decoded messages through the `onmessage` handler. -/
def onmessages (st : ServerSignalWebSocket) :
    List ServerSignalUpdate → Option ServerSignalWebSocket
  | [] => some st
  | u :: us => (onmessage st (some u)).bind fun r => onmessages r.1 us

/-- A raw inbound websocket frame, as seen by the callback before any
processing: `event.data()` is either a JS string (a text frame, carried
here together with the result of the subsequent
`serde_json::from_str::<ServerSignalUpdate>` on it, `none` for garbage
text) or some non-string value such as a `Blob`/`ArrayBuffer` (a binary
frame). -/
inductive WsFrame where
  | text (decoded : Option ServerSignalUpdate) : WsFrame
  | binary : WsFrame

/-- The full `onmessage` callback (src/lib.rs:236-258) on a raw frame.
Line 237, `event.data().dyn_into::<JsString>().unwrap().as_string().unwrap()`,
panics when the frame is not a JS string — before the envelope decode is
ever reached — modelled by the `none` result on a binary frame; on a text
frame it proceeds with the decode-and-dispatch body `onmessage`. -/
def onmessageRaw (st : ServerSignalWebSocket) :
    WsFrame → Option (ServerSignalWebSocket × List String)
  | .binary => none
  | .text decoded => onmessage st decoded

/-- The `on_timeout_callback` of `add_retry_timeout` (src/lib.rs:277-284):
builds a new websocket to the same url, copies the `onmessage`, `onclose`
and `onerror` handlers from the old connection onto it, and replaces the
stored connection reference. `state_signals` and `delayed_updates` are
never read or written by either the timeout or the error callback
(src/lib.rs:277-299). -/
def retryOnTimeout (st : ServerSignalWebSocket) : ServerSignalWebSocket :=
  let new_ws : WsConn :=
    { url := st.ws.url
      onmessage := st.ws.onmessage
      onclose := st.ws.onclose
      onerror := st.ws.onerror }
  { st with ws := new_ws }

/-! ## Concrete instances used by witnesses and counterexamples -/

/-- The serialization of the `Count { value: i32 }` struct of the crate's
doc example (`serde_json::to_value(Count { value: n })`). -/
def encCount (n : Int) : Json := .obj [("value", .num n)]

/-- A fresh client registry right after `provide_websocket` connects:
no replicas, no queued patches. -/
def wsEmpty : ServerSignalWebSocket :=
  { ws := { url := "ws://localhost:3000/ws", onmessage := some 0,
            onclose := none, onerror := none }
    state_signals := []
    delayed_updates := [] }

/-- A concrete one-operation patch: replace the root with `1`. -/
def px : Patch := [.replace [] (.num 1)]

/-- A concrete wire update for a channel named `"x"`. -/
def updX : ServerSignalUpdate := { name := "x", patch := px }

/-- Scenario for C2: a diff for the unregistered channel `"x"` arrives (and
is queued), then `"x"` registers with initial value `0`. -/
def c2st : ServerSignalWebSocket :=
  create_server_signal "x" (.num 0)
    (((onmessage wsEmpty (some updX)).getD (wsEmpty, [])).1)

/-- Scenario for C5: like `c2st`, but `"x"` then re-registers with a fresh
replica value `5` while the queued diff is still pending. -/
def c5st : ServerSignalWebSocket :=
  create_server_signal "x" (.num 5) c2st

/-- The `"counter"` channel of the spec's concrete scenario, starting at
`Count { value: 0 }`. -/
def counterServer : ServerSignal Int :=
  ServerSignal.new "counter" 0 encCount

/-- Three mutations, each incrementing `value` by one, all of whose sends
succeed: the final server state and the three transmitted envelopes. -/
def counterRun : ServerSignal Int × List ServerSignalUpdate :=
  serverRun encCount counterServer [(· + 1), (· + 1), (· + 1)]

/-- A fresh client that has just registered the `"counter"` replica at its
default encoding `{value: 0}`. -/
def counterClient : ServerSignalWebSocket :=
  create_server_signal "counter" (encCount 0) wsEmpty

/-! ## Map helper lemmas -/

theorem mapGet_mapInsert_self (k : String) (v : α) (m : List (String × α)) :
    mapGet k (mapInsert k v m) = some v := by
  induction m with
  | nil => simp [mapGet, mapInsert]
  | cons kv m ih =>
    obtain ⟨k', v'⟩ := kv
    by_cases h : k = k' <;> simp [mapGet, mapInsert, h, ih]

/-! ## Claim theorems: server channel and registry behaviour -/

/-- C3: for every call to the server channel's mutate operation
(`ServerSignal::with`), the in-memory value is updated by the caller's
closure before the websocket write is attempted — the mutation is present
in the returned state whether or not the send succeeds — and if the write
fails the value mutation is not rolled back, nothing is transmitted, and
the failure is surfaced to the caller as an `Err` result. -/
theorem c3_with_mutates_before_send_and_surfaces_failure
    {T : Type} (encode : T → Json) (sendOk : Bool) (f : T → T)
    (s : ServerSignal T) :
    (s.with' encode sendOk f).1.value = f s.value ∧
      (sendOk = false →
        (s.with' encode sendOk f).1.value = f s.value ∧
          (s.with' encode sendOk f).2.2 = Except.error Error.webSocket ∧
          (s.with' encode sendOk f).2.1 = []) := by
  cases sendOk <;> simp [ServerSignal.with']

theorem c3_witness :
    (((ServerSignal.new "counter" (0 : Int) encCount).with' encCount false
        (fun n => n + 1)).1.value = 1) ∧
      (((ServerSignal.new "counter" (0 : Int) encCount).with' encCount false
          (fun n => n + 1)).2.2 = Except.error Error.webSocket) := by
  have h := c3_with_mutates_before_send_and_surfaces_failure encCount false
    (fun n => n + 1) (ServerSignal.new "counter" (0 : Int) encCount)
  exact ⟨by simpa [ServerSignal.new] using h.1, (h.2 rfl).2.1⟩

/-- C9: after `ServerSignal::new` and after every successful `with` call,
the stored `json_value` is the serialization of the stored `value`; a
`with` call that fails at the websocket send leaves `json_value` at its
pre-mutation snapshot (it is only assigned after a successful send); and
the next successful `with` transmits exactly the diff from the last
successfully transmitted snapshot to the new serialization, covering the
mutation whose send failed. -/
theorem c9_json_value_tracks_last_transmitted_state
    {T : Type} (encode : T → Json) (name : String) (dflt : T)
    (f f₁ f₂ : T → T) (s : ServerSignal T) :
    (ServerSignal.new name dflt encode).json_value =
        encode (ServerSignal.new name dflt encode).value ∧
      (s.with' encode true f).1.json_value =
        encode ((s.with' encode true f).1.value) ∧
      (s.with' encode false f).1.json_value = s.json_value ∧
      ((s.with' encode false f₁).1.with' encode true f₂).2.1 =
        [ServerSignalUpdate.new_from_json s.name s.json_value
          (encode (f₂ (f₁ s.value)))] := by
  simp [ServerSignal.new, ServerSignal.with']

/-- C8: the reconnect timeout handler replaces only the websocket
connection reference (same url, same event handlers) and leaves the
registered replicas map and the delayed update queue untouched. -/
theorem c8_reconnect_preserves_registry_state (st : ServerSignalWebSocket) :
    (retryOnTimeout st).state_signals = st.state_signals ∧
      (retryOnTimeout st).delayed_updates = st.delayed_updates ∧
      (retryOnTimeout st).ws.url = st.ws.url ∧
      (retryOnTimeout st).ws.onmessage = st.ws.onmessage ∧
      (retryOnTimeout st).ws.onclose = st.ws.onclose ∧
      (retryOnTimeout st).ws.onerror = st.ws.onerror :=
  ⟨rfl, rfl, rfl, rfl, rfl, rfl⟩

/-- C6 counterexample, refuting both halves of the claim on concrete
garbage inputs. A garbage text frame: the decode fails and the `onmessage`
callback, having no `else` branch, drops the message without emitting any
log line — so "logs the decode failure" is false. A garbage binary frame:
the handler panics at the `JsString` conversion unwrap of src/lib.rs:237
before the envelope decode is reached — so "returns an explicit failure
rather than panicking" is false as well. -/
theorem c6_counterexample_decode_failure_not_logged :
    onmessage wsEmpty none = some (wsEmpty, []) ∧
      (¬ ∃ r, onmessage wsEmpty none = some r ∧ r.2 ≠ []) ∧
      onmessageRaw wsEmpty .binary = none := by
  refine ⟨rfl, ?_, rfl⟩
  rintro ⟨r, hr, hne⟩
  rw [show onmessage wsEmpty none = some (wsEmpty, []) from rfl] at hr
  injection hr with h
  subst h
  exact hne rfl

/-- C6 amended: for an inbound *text* frame whose contents do not decode to
a valid `ServerSignalUpdate`, the decode returns an explicit failure
(`serde_json::from_str` returns `Err`, modelled by the `none` payload) and
the handler drops the message silently — registry state unchanged, no log
line, no panic; but for a *non-text* (binary) garbage frame the handler
panics at the `JsString` conversion unwrap of src/lib.rs:237 before the
envelope decode is ever attempted. -/
theorem c6_amended_text_garbage_dropped_binary_garbage_panics
    (st : ServerSignalWebSocket) :
    onmessageRaw st (.text none) = some (st, []) ∧
      onmessageRaw st .binary = none :=
  ⟨rfl, rfl⟩

/-- C5 counterexample: a diff for the unregistered channel `"x"` arrives
and is queued, `"x"` registers, then `"x"` re-registers with a fresh
replica. The queued diff is still present in `delayed_updates` afterwards —
re-registration does not discard not-yet-applied queued diffs, so the claim
is false at this input (the replica replacement part does hold). -/
theorem c5_counterexample_reregistration_keeps_queued_diffs :
    mapGet "x" c5st.state_signals = some (.num 5) ∧
      mapGet "x" c5st.delayed_updates = some [px] ∧
      (some [px] : Option (List Patch)) ≠ none ∧
      px ≠ [] := by
  refine ⟨rfl, rfl, by simp, by simp [px]⟩

/-- C5 amended: re-registering an already-registered channel_id replaces
the stored replica, but leaves the delayed update queue unchanged — queued
diffs are not discarded (they are applied when the next message for that
channel arrives, see C2). -/
theorem c5_amended_reregistration_replaces_replica_keeps_queue
    (name : String) (v : Json) (st : ServerSignalWebSocket) :
    mapGet name (create_server_signal name v st).state_signals = some v ∧
      (create_server_signal name v st).delayed_updates = st.delayed_updates :=
  ⟨mapGet_mapInsert_self name v st.state_signals, rfl⟩

/-- C2 counterexample: a diff for the unregistered channel `"x"` is queued,
then `"x"` registers with initial value `0`. Immediately after
registration the replica is still the initial value `0`, while applying the
queued diff would give `1`, and the queue is not drained — so the claim
that the queue is fully drained at the instant of registration is false at
this input. -/
theorem c2_counterexample_registration_does_not_drain_queue :
    mapGet "x" c2st.state_signals = some (.num 0) ∧
      mapGet "x" c2st.delayed_updates = some [px] ∧
      applyPatches (.num 0) [px] = some (.num 1) ∧
      Json.num 0 ≠ Json.num 1 := by
  refine ⟨rfl, rfl, rfl, by simp⟩

/-- C2 amended: registration (`create_server_signal`) inserts the replica
but does not touch the delayed update queue; the queued diffs are drained —
removed from the queue and applied in arrival order, before the incoming
diff — when the first message for that channel_id arrives after
registration. -/
theorem c2_amended_queue_drained_on_first_message_after_registration
    (st : ServerSignalWebSocket) (name : String) (v d₁ d₂ : Json)
    (q : Patch) (ps : List Patch)
    (hq : mapGet name st.delayed_updates = some ps)
    (hap : applyPatches v ps = some d₁)
    (h₂ : applyPatch d₁ q = some d₂) :
    mapGet name (create_server_signal name v st).state_signals = some v ∧
      (create_server_signal name v st).delayed_updates = st.delayed_updates ∧
      onmessage (create_server_signal name v st) (some { name := name, patch := q }) =
        some ({ ws := st.ws
                state_signals := mapInsert name d₂ (mapInsert name v st.state_signals)
                delayed_updates := mapRemove name st.delayed_updates }, []) := by
  refine ⟨mapGet_mapInsert_self name v st.state_signals, rfl, ?_⟩
  simp [onmessage, create_server_signal, mapGet_mapInsert_self, hq, hap, h₂]

theorem c2_amended_witness :
    mapGet "x" (create_server_signal "x" (.num 0)
        { wsEmpty with delayed_updates := [("x", [px])] }).state_signals =
      some (.num 0) ∧
      onmessage (create_server_signal "x" (.num 0)
          { wsEmpty with delayed_updates := [("x", [px])] })
          (some { name := "x", patch := [.replace [] (.num 2)] }) =
        some ({ ws := wsEmpty.ws
                state_signals := mapInsert "x" (.num 2) (mapInsert "x" (.num 0) [])
                delayed_updates := mapRemove "x" [("x", [px])] }, []) := by
  have h := c2_amended_queue_drained_on_first_message_after_registration
    { wsEmpty with delayed_updates := [("x", [px])] } "x" (.num 0) (.num 1) (.num 2)
    [.replace [] (.num 2)] [px] rfl rfl rfl
  exact ⟨h.1, h.2.2⟩

/-- C10: in the client message handler, patch application (whether of a
freshly arrived patch or of drained queued patches) goes through
`json_patch::patch(..).unwrap()`, so when the combined application fails on
the replica's current state the handler panics (result `none`) instead of
returning or logging an error. -/
theorem c10_failing_patch_panics
    (st : ServerSignalWebSocket) (name : String) (doc : Json) (q : Patch)
    (hreg : mapGet name st.state_signals = some doc)
    (hfail : (applyPatches doc ((mapGet name st.delayed_updates).getD [])).bind
        (fun d => applyPatch d q) = none) :
    onmessage st (some { name := name, patch := q }) = none := by
  simp only [onmessage, hreg]
  cases h : applyPatches doc ((mapGet name st.delayed_updates).getD []) with
  | none => rfl
  | some d₁ =>
    rw [h] at hfail
    simp only [Option.some_bind] at hfail
    simp [hfail]

theorem c10_witness :
    onmessage { wsEmpty with state_signals := [("x", .num 0)] }
      (some { name := "x", patch := [.remove [.key "a"]] }) = none := by
  exact c10_failing_patch_panics
    { wsEmpty with state_signals := [("x", .num 0)] } "x" (.num 0)
    [.remove [.key "a"]] rfl rfl

/-! ## Equality test lemmas -/

mutual

theorem jeq_refl : ∀ a : Json, jeq a a = true
  | .null => by simp [jeq]
  | .bool b => by simp [jeq]
  | .num n => by simp [jeq]
  | .str s => by simp [jeq]
  | .arr xs => by simp [jeq]; exact jeqL_refl xs
  | .obj fs => by simp [jeq]; exact jeqO_refl fs

theorem jeqL_refl : ∀ xs : List Json, jeqL xs xs = true
  | [] => by simp [jeqL]
  | x :: xs => by simp [jeqL]; exact ⟨jeq_refl x, jeqL_refl xs⟩

theorem jeqO_refl : ∀ fs : List (String × Json), jeqO fs fs = true
  | [] => by simp [jeqO]
  | (k, v) :: fs => by simp [jeqO]; exact ⟨jeq_refl v, jeqO_refl fs⟩

end

theorem jeq_sound : ∀ a b : Json, jeq a b = true → a = b := by
  refine jeq.induct (fun a b => jeq a b = true → a = b)
    (fun fs gs => jeqO fs gs = true → fs = gs)
    (fun xs ys => jeqL xs ys = true → xs = ys)
    ?_ ?_ ?_ ?_ ?_ ?_ ?_ ?_ ?_ ?_ ?_ ?_ ?_
  · intro _; rfl
  · intro x y h; simp [jeq] at h; rw [h]
  · intro x y h; simp [jeq] at h; rw [h]
  · intro x y h; simp [jeq] at h; rw [h]
  · intro xs ys ih h; simp [jeq] at h; rw [ih h]
  · intro fs gs ih h; simp [jeq] at h; rw [ih h]
  · intro t x h1 h2 h3 h4 h5 h6 h
    exfalso
    cases t <;> cases x <;> simp_all [jeq]
  · intro _; rfl
  · intro x xs y ys ih1 ih2 h
    simp [jeqL] at h
    rw [ih1 h.1, ih2 h.2]
  · intro t x h1 h2 h
    exfalso
    cases t <;> cases x <;> simp_all [jeqL]
  · intro _; rfl
  · intro k v fs k' v' gs ih1 ih2 h
    simp [jeqO] at h
    rw [h.1.1, ih1 h.1.2, ih2 h.2]
  · intro t x h1 h2 h
    exfalso
    cases t with
    | nil =>
      cases x with
      | nil => exact h1 rfl rfl
      | cons q gs => simp [jeqO] at h
    | cons p fs =>
      cases x with
      | nil => simp [jeqO] at h
      | cons q gs =>
        obtain ⟨k, v⟩ := p
        obtain ⟨k', v'⟩ := q
        exact h2 k v fs k' v' gs rfl rfl

/-! ## The no-op diff -/

mutual

theorem diffV_self : ∀ a : Json, diffV a a = []
  | .null => by simp [diffV, jeq]
  | .bool b => by simp [diffV, jeq]
  | .num n => by simp [diffV, jeq]
  | .str s => by simp [diffV, jeq]
  | .arr xs => by simp [diffV]; exact diffA_self 0 xs
  | .obj fs => by simp [diffV]; exact diffO_self fs

theorem diffA_self : ∀ (i : Nat) (xs : List Json), diffA i xs xs = []
  | _, [] => by simp [diffA]
  | i, x :: xs => by simp [diffA, diffV_self x, diffA_self (i + 1) xs]

theorem diffO_self : ∀ fs : List (String × Json), diffO fs fs = []
  | [] => by simp [diffO]
  | (k, v) :: fs => by simp [diffO, diffV_self v, diffO_self fs]

end

/-! ## Root safety of diff output -/

theorem prepend_rootSafe (s : Step) (op : Op) : (op.prepend s).rootSafe := by
  cases op <;> simp [Op.prepend, Op.rootSafe]

theorem diffA_rootSafe : ∀ (i : Nat) (xs ys : List Json), ∀ op ∈ diffA i xs ys, op.rootSafe
  | _, [], [] => by simp [diffA]
  | i, [], y :: ys => by
    intro op hop
    simp only [diffA] at hop
    rcases List.mem_cons.mp hop with rfl | h
    · simp [Op.rootSafe]
    · exact diffA_rootSafe (i + 1) [] ys op h
  | i, x :: xs, [] => by
    intro op hop
    simp only [diffA] at hop
    rcases List.mem_cons.mp hop with rfl | h
    · simp [Op.rootSafe]
    · exact diffA_rootSafe i xs [] op h
  | i, x :: xs, y :: ys => by
    intro op hop
    simp only [diffA] at hop
    rcases List.mem_append.mp hop with h | h
    · rcases List.mem_map.mp h with ⟨op', -, rfl⟩
      exact prepend_rootSafe _ op'
    · exact diffA_rootSafe (i + 1) xs ys op h

theorem diffO_rootSafe : ∀ fs gs : List (String × Json), ∀ op ∈ diffO fs gs, op.rootSafe
  | [], [] => by simp [diffO]
  | [], (k, v) :: gs => by
    intro op hop
    simp only [diffO] at hop
    rcases List.mem_cons.mp hop with rfl | h
    · simp [Op.rootSafe]
    · exact diffO_rootSafe [] gs op h
  | (k, v) :: fs, [] => by
    intro op hop
    simp only [diffO] at hop
    rcases List.mem_cons.mp hop with rfl | h
    · simp [Op.rootSafe]
    · exact diffO_rootSafe fs [] op h
  | (k₁, v₁) :: fs, (k₂, v₂) :: gs => by
    intro op hop
    simp only [diffO] at hop
    by_cases hk : k₁ = k₂
    · rw [if_pos hk] at hop
      rcases List.mem_append.mp hop with h | h
      · rcases List.mem_map.mp h with ⟨op', -, rfl⟩
        exact prepend_rootSafe _ op'
      · exact diffO_rootSafe fs gs op h
    · rw [if_neg hk] at hop
      by_cases hlt : k₁ < k₂
      · rw [if_pos hlt] at hop
        rcases List.mem_cons.mp hop with rfl | h
        · simp [Op.rootSafe]
        · exact diffO_rootSafe fs ((k₂, v₂) :: gs) op h
      · rw [if_neg hlt] at hop
        rcases List.mem_cons.mp hop with rfl | h
        · simp [Op.rootSafe]
        · exact diffO_rootSafe ((k₁, v₁) :: fs) gs op h

theorem diffV_rootSafe (a b : Json) : ∀ op ∈ diffV a b, op.rootSafe := by
  cases a <;> cases b <;>
    simp only [diffV] <;>
    first
      | exact diffA_rootSafe 0 _ _
      | exact diffO_rootSafe _ _
      | (split <;> simp [Op.rootSafe])

/-! ## List index lemmas -/

theorem lt_of_getIdx {xs : List Json} {i : Nat} {c : Json} (h : xs[i]? = some c) :
    i < xs.length := by
  by_contra hh
  push_neg at hh
  rw [List.getElem?_eq_none hh] at h
  cases h

theorem getIdx_append_len (pre : List Json) (x : Json) (xs : List Json) :
    (pre ++ x :: xs)[pre.length]? = some x := by
  induction pre with
  | nil => simp
  | cons p pre ih => simpa using ih

theorem set_append_len (pre : List Json) (x y : Json) (xs : List Json) :
    (pre ++ x :: xs).set pre.length y = pre ++ y :: xs := by
  induction pre with
  | nil => rfl
  | cons p pre ih => simp [ih]

theorem listIns_append_len (pre : List Json) (v : Json) (xs : List Json) :
    listIns v pre.length (pre ++ xs) = pre ++ v :: xs := by
  induction pre with
  | nil => cases xs <;> rfl
  | cons p pre ih => simp [listIns, ih]

theorem listDel_append_len (pre : List Json) (x : Json) (xs : List Json) :
    listDel pre.length (pre ++ x :: xs) = pre ++ xs := by
  induction pre with
  | nil => rfl
  | cons p pre ih => simp [listDel, ih]

theorem getIdx_set_self : ∀ (xs : List Json) (i : Nat) (v : Json), i < xs.length →
    (xs.set i v)[i]? = some v
  | [], i, v, h => by simp at h
  | x :: xs, 0, v, _ => by simp
  | x :: xs, i + 1, v, h => by
    simpa using getIdx_set_self xs i v (by simpa using h)

theorem set_getIdx_id : ∀ (xs : List Json) (i : Nat) (c : Json), xs[i]? = some c →
    xs.set i c = xs
  | [], _, c, h => by cases h
  | x :: xs, 0, c, h => by
    obtain rfl : x = c := by simpa using h
    rfl
  | x :: xs, i + 1, c, h => by
    have hh := set_getIdx_id xs i c (by simpa using h)
    simp [hh]

/-! ## Object field list lemmas -/

theorem objGet_cons_self (k : String) (v : Json) (fs : List (String × Json)) :
    objGet k ((k, v) :: fs) = some v := by
  simp [objGet]

theorem objGet_append_right (k : String) (pre rest : List (String × Json))
    (h : ∀ p ∈ pre, p.1 ≠ k) : objGet k (pre ++ rest) = objGet k rest := by
  induction pre with
  | nil => rfl
  | cons p pre ih =>
    obtain ⟨k', v'⟩ := p
    have hk : ¬ k = k' := fun hh => h (k', v') (by simp) hh.symm
    simp only [List.cons_append, objGet, if_neg hk]
    exact ih fun q hq => h q (by simp [hq])

theorem objSet_cons_self (k : String) (v v' : Json) (fs : List (String × Json)) :
    objSet k v ((k, v') :: fs) = (k, v) :: fs := by
  simp [objSet]

theorem objSet_append_right (k : String) (v : Json) (pre rest : List (String × Json))
    (h : ∀ p ∈ pre, p.1 ≠ k) : objSet k v (pre ++ rest) = pre ++ objSet k v rest := by
  induction pre with
  | nil => rfl
  | cons p pre ih =>
    obtain ⟨k', v'⟩ := p
    have hk : ¬ k = k' := fun hh => h (k', v') (by simp) hh.symm
    simp only [List.cons_append, objSet, if_neg hk, List.cons.injEq, true_and]
    exact ih fun q hq => h q (by simp [hq])

theorem objRemove_cons_self (k : String) (v : Json) (fs : List (String × Json)) :
    objRemove k ((k, v) :: fs) = some fs := by
  simp [objRemove]

theorem objRemove_append_right (k : String) (pre rest rest' : List (String × Json))
    (h : ∀ p ∈ pre, p.1 ≠ k) (hr : objRemove k rest = some rest') :
    objRemove k (pre ++ rest) = some (pre ++ rest') := by
  induction pre with
  | nil => simpa using hr
  | cons p pre ih =>
    obtain ⟨k', v'⟩ := p
    have hk : ¬ k = k' := fun hh => h (k', v') (by simp) hh.symm
    have hih := ih fun q hq => h q (by simp [hq])
    simp [objRemove, hk, hih]

theorem objInsert_append (k : String) (v : Json) (pre rest : List (String × Json))
    (hpre : ∀ p ∈ pre, p.1 < k) (hrest : ∀ p ∈ rest, k < p.1) :
    objInsert k v (pre ++ rest) = pre ++ (k, v) :: rest := by
  induction pre with
  | nil =>
    cases rest with
    | nil => rfl
    | cons q rest' =>
      obtain ⟨k', v'⟩ := q
      have hlt : k < k' := hrest (k', v') (by simp)
      show objInsert k v ((k', v') :: rest') = (k, v) :: (k', v') :: rest'
      rw [objInsert, if_pos hlt]
  | cons p pre ih =>
    obtain ⟨k', v'⟩ := p
    have h1 : k' < k := hpre (k', v') (by simp)
    simp only [List.cons_append, objInsert, if_neg (lt_asymm h1),
      if_neg (ne_of_gt h1), List.cons.injEq, true_and]
    exact ih fun q hq => hpre q (by simp [hq])

theorem objGet_objSet_self (k : String) (v : Json) :
    ∀ (fs : List (String × Json)) (c : Json), objGet k fs = some c →
      objGet k (objSet k v fs) = some v
  | [], c, h => by cases h
  | (k', v') :: fs, c, h => by
    by_cases hk : k = k'
    · simp [objSet, objGet, hk]
    · rw [objGet, if_neg hk] at h
      simp only [objSet, if_neg hk, objGet]
      exact objGet_objSet_self k v fs c h

theorem objSet_objGet_id (k : String) :
    ∀ (fs : List (String × Json)) (c : Json), objGet k fs = some c →
      objSet k c fs = fs
  | [], c, h => by cases h
  | (k', v') :: fs, c, h => by
    by_cases hk : k = k'
    · subst hk
      rw [objGet_cons_self] at h
      obtain rfl : v' = c := by simpa using h
      simp [objSet]
    · rw [objGet, if_neg hk] at h
      simp only [objSet, if_neg hk, List.cons.injEq, true_and]
      exact objSet_objGet_id k fs c h

theorem objSet_objSet (k : String) (v v' : Json) :
    ∀ fs : List (String × Json), objSet k v' (objSet k v fs) = objSet k v' fs
  | [] => rfl
  | (k', w) :: fs => by
    by_cases hk : k = k'
    · simp [objSet, hk]
    · simp only [objSet, if_neg hk, List.cons.injEq, true_and]
      exact objSet_objSet k v v' fs

/-! ## Patch composition and transport into a child position -/

theorem applyPatch_append (ops₁ ops₂ : List Op) :
    ∀ doc : Json, applyPatch doc (ops₁ ++ ops₂) =
      (applyPatch doc ops₁).bind (applyPatch · ops₂) := by
  induction ops₁ with
  | nil => intro doc; simp [applyPatch]
  | cons op ops ih =>
    intro doc
    simp only [List.cons_append, applyPatch]
    cases applyOp doc op with
    | none => simp
    | some d => simp [ih d]

theorem applyOp_prepend_key (k : String) (fs : List (String × Json)) (c : Json)
    (op : Op) (hg : objGet k fs = some c) (hs : op.rootSafe) :
    applyOp (.obj fs) (op.prepend (.key k)) =
      (applyOp c op).map fun c' => .obj (objSet k c' fs) := by
  cases op with
  | add p v =>
    cases p with
    | nil => exact absurd rfl hs
    | cons q qs => simp [Op.prepend, applyOp, addAt, hg]
  | remove p =>
    cases p with
    | nil => exact absurd rfl hs
    | cons q qs => simp [Op.prepend, applyOp, removeAt, hg]
  | replace p v =>
    cases p with
    | nil => simp [Op.prepend, applyOp, replaceAt, hg]
    | cons q qs => simp [Op.prepend, applyOp, replaceAt, hg]

theorem applyOp_prepend_idx (i : Nat) (xs : List Json) (c : Json)
    (op : Op) (hg : xs[i]? = some c) (hs : op.rootSafe) :
    applyOp (.arr xs) (op.prepend (.idx i)) =
      (applyOp c op).map fun c' => .arr (xs.set i c') := by
  have hlen : i < xs.length := lt_of_getIdx hg
  cases op with
  | add p v =>
    cases p with
    | nil => exact absurd rfl hs
    | cons q qs => simp [Op.prepend, applyOp, addAt, hg]
  | remove p =>
    cases p with
    | nil => exact absurd rfl hs
    | cons q qs => simp [Op.prepend, applyOp, removeAt, hg]
  | replace p v =>
    cases p with
    | nil => simp [Op.prepend, applyOp, replaceAt, hlen]
    | cons q qs => simp [Op.prepend, applyOp, replaceAt, hg]

theorem applyPatch_prepend_key (k : String) (ops : List Op) :
    ∀ (fs : List (String × Json)) (c c' : Json),
      objGet k fs = some c → (∀ op ∈ ops, op.rootSafe) →
      applyPatch c ops = some c' →
      applyPatch (.obj fs) (ops.map (.prepend (.key k))) =
        some (.obj (objSet k c' fs)) := by
  induction ops with
  | nil =>
    intro fs c c' hg _ hap
    obtain rfl : c = c' := by simpa [applyPatch] using hap
    simp [applyPatch, objSet_objGet_id k fs c hg]
  | cons op ops ih =>
    intro fs c c' hg hs hap
    simp only [applyPatch] at hap
    cases hop : applyOp c op with
    | none => rw [hop] at hap; cases hap
    | some c₁ =>
      rw [hop] at hap
      simp only [Option.some_bind] at hap
      have hstep := applyOp_prepend_key k fs c op hg (hs op (by simp))
      rw [hop] at hstep
      simp only [List.map_cons, applyPatch, hstep, Option.map_some', Option.some_bind]
      rw [ih (objSet k c₁ fs) c₁ c' (objGet_objSet_self k c₁ fs c hg)
        (fun o ho => hs o (by simp [ho])) hap, objSet_objSet]

theorem applyPatch_prepend_idx (i : Nat) (ops : List Op) :
    ∀ (xs : List Json) (c c' : Json),
      xs[i]? = some c → (∀ op ∈ ops, op.rootSafe) →
      applyPatch c ops = some c' →
      applyPatch (.arr xs) (ops.map (.prepend (.idx i))) =
        some (.arr (xs.set i c')) := by
  induction ops with
  | nil =>
    intro xs c c' hg _ hap
    obtain rfl : c = c' := by simpa [applyPatch] using hap
    simp [applyPatch, set_getIdx_id xs i c hg]
  | cons op ops ih =>
    intro xs c c' hg hs hap
    simp only [applyPatch] at hap
    cases hop : applyOp c op with
    | none => rw [hop] at hap; cases hap
    | some c₁ =>
      rw [hop] at hap
      simp only [Option.some_bind] at hap
      have hstep := applyOp_prepend_idx i xs c op hg (hs op (by simp))
      rw [hop] at hstep
      simp only [List.map_cons, applyPatch, hstep, Option.map_some', Option.some_bind]
      rw [ih (xs.set i c₁) c₁ c'
        (getIdx_set_self xs i c₁ (lt_of_getIdx hg))
        (fun o ho => hs o (by simp [ho])) hap, List.set_set]

/-! ## Well-formedness decomposition -/

theorem jwfL_cons {x : Json} {xs : List Json} (h : jwfL (x :: xs) = true) :
    jwf x = true ∧ jwfL xs = true := by
  simpa [jwfL, Bool.and_eq_true] using h

theorem jwfO_cons : ∀ (k : String) (v : Json) (fs : List (String × Json)),
    jwfO ((k, v) :: fs) = true →
    jwf v = true ∧ jwfO fs = true ∧ ∀ f ∈ fs, k < f.1
  | k, v, [], h => by
    simp only [jwfO, Bool.and_eq_true] at h
    exact ⟨h.1.1, by simp [jwfO], by simp⟩
  | k, v, (k', v') :: fs, h => by
    simp only [jwfO, Bool.and_eq_true, decide_eq_true_eq] at h
    obtain ⟨⟨h1, h2⟩, h3⟩ := h
    have ih := jwfO_cons k' v' fs (by simp only [jwfO, Bool.and_eq_true]; exact h2)
    refine ⟨h1, by simp only [jwfO, Bool.and_eq_true]; exact h2, ?_⟩
    intro f hf
    rcases List.mem_cons.mp hf with rfl | hf'
    · exact h3
    · exact lt_trans h3 (ih.2.2 f hf')

/-! ## The round trip: apply after diff restores the target value -/

theorem listIns_len (v : Json) (xs : List Json) :
    listIns v xs.length xs = xs ++ [v] := by
  simpa using listIns_append_len xs v []

theorem diffV_default_roundtrip (a b : Json)
    (hd : diffV a b = if jeq a b then [] else [.replace [] b]) :
    applyPatch a (diffV a b) = some b := by
  rw [hd]
  by_cases hj : jeq a b = true
  · rw [if_pos hj, jeq_sound a b hj]
    simp [applyPatch]
  · rw [if_neg hj]
    simp [applyPatch, applyOp, replaceAt]

mutual

theorem diffV_roundtrip : ∀ a b : Json, jwf a = true → jwf b = true →
    applyPatch a (diffV a b) = some b
  | .null, b, _, _ => by
    cases b <;> exact diffV_default_roundtrip _ _ (by simp [diffV])
  | .bool x, b, _, _ => by
    cases b <;> exact diffV_default_roundtrip _ _ (by simp [diffV])
  | .num x, b, _, _ => by
    cases b <;> exact diffV_default_roundtrip _ _ (by simp [diffV])
  | .str x, b, _, _ => by
    cases b <;> exact diffV_default_roundtrip _ _ (by simp [diffV])
  | .arr xs, .null, _, _ => diffV_default_roundtrip _ _ (by simp [diffV])
  | .arr xs, .bool y, _, _ => diffV_default_roundtrip _ _ (by simp [diffV])
  | .arr xs, .num y, _, _ => diffV_default_roundtrip _ _ (by simp [diffV])
  | .arr xs, .str y, _, _ => diffV_default_roundtrip _ _ (by simp [diffV])
  | .arr xs, .obj gs, _, _ => diffV_default_roundtrip _ _ (by simp [diffV])
  | .obj fs, .null, _, _ => diffV_default_roundtrip _ _ (by simp [diffV])
  | .obj fs, .bool y, _, _ => diffV_default_roundtrip _ _ (by simp [diffV])
  | .obj fs, .num y, _, _ => diffV_default_roundtrip _ _ (by simp [diffV])
  | .obj fs, .str y, _, _ => diffV_default_roundtrip _ _ (by simp [diffV])
  | .obj fs, .arr ys, _, _ => diffV_default_roundtrip _ _ (by simp [diffV])
  | .arr xs, .arr ys, ha, hb => by
    simp only [diffV]
    simpa using diffA_roundtrip xs ys []
      (by simpa [jwf] using ha) (by simpa [jwf] using hb)
  | .obj fs, .obj gs, ha, hb => by
    simp only [diffV]
    simpa using diffO_roundtrip fs gs []
      (by simpa [jwf] using ha) (by simpa [jwf] using hb) (by simp) (by simp)

theorem diffA_roundtrip : ∀ xs ys pre : List Json,
    jwfL xs = true → jwfL ys = true →
    applyPatch (.arr (pre ++ xs)) (diffA pre.length xs ys) =
      some (.arr (pre ++ ys))
  | [], [], pre, _, _ => by simp [diffA, applyPatch]
  | [], y :: ys, pre, hxs, hys => by
    obtain ⟨hy, hys'⟩ := jwfL_cons hys
    have hrec := diffA_roundtrip [] ys (pre ++ [y]) (by simp [jwfL]) hys'
    simp only [diffA, applyPatch, applyOp, addAt, List.append_nil]
    rw [if_pos (le_refl _), listIns_len y pre]
    simp only [Option.some_bind]
    simpa using hrec
  | x :: xs, [], pre, hxs, hys => by
    obtain ⟨hx, hxs'⟩ := jwfL_cons hxs
    have hrec := diffA_roundtrip xs [] pre hxs' (by simp [jwfL])
    simp only [diffA, applyPatch, applyOp, removeAt]
    rw [if_pos (by simp only [List.length_append, List.length_cons]; omega),
      listDel_append_len pre x xs]
    simpa using hrec
  | x :: xs, y :: ys, pre, hxs, hys => by
    obtain ⟨hx, hxs'⟩ := jwfL_cons hxs
    obtain ⟨hy, hys'⟩ := jwfL_cons hys
    have hlift := applyPatch_prepend_idx pre.length (diffV x y) (pre ++ x :: xs)
      x y (getIdx_append_len pre x xs) (diffV_rootSafe x y)
      (diffV_roundtrip x y hx hy)
    rw [set_append_len pre x y xs] at hlift
    have hrec := diffA_roundtrip xs ys (pre ++ [y]) hxs' hys'
    simp only [diffA, applyPatch_append, hlift, Option.some_bind]
    simpa using hrec

theorem diffO_roundtrip : ∀ fs gs pre : List (String × Json),
    jwfO fs = true → jwfO gs = true →
    (∀ p ∈ pre, ∀ f ∈ fs, p.1 < f.1) →
    (∀ p ∈ pre, ∀ g ∈ gs, p.1 < g.1) →
    applyPatch (.obj (pre ++ fs)) (diffO fs gs) = some (.obj (pre ++ gs))
  | [], [], pre, _, _, _, _ => by simp [diffO, applyPatch]
  | [], (k, v) :: gs, pre, hfs, hgs, hprefs, hpregs => by
    obtain ⟨hv, hgs', hlt⟩ := jwfO_cons k v gs hgs
    have hins : objInsert k v (pre ++ []) = pre ++ (k, v) :: [] :=
      objInsert_append k v pre []
        (fun p hp => hpregs p hp (k, v) (by simp)) (by simp)
    have hrec := diffO_roundtrip [] gs (pre ++ [(k, v)]) (by simp [jwfO]) hgs'
      (by simp)
      (fun p hp g hg => by
        rcases List.mem_append.mp hp with h1 | h1
        · exact hpregs p h1 g (by simp [hg])
        · obtain rfl : p = (k, v) := by simpa using h1
          exact hlt g hg)
    simp only [diffO, applyPatch, applyOp, addAt, hins, Option.some_bind]
    simpa using hrec
  | (k, v) :: fs, [], pre, hfs, hgs, hprefs, hpregs => by
    obtain ⟨hv, hfs', hlt⟩ := jwfO_cons k v fs hfs
    have hrem : objRemove k (pre ++ (k, v) :: fs) = some (pre ++ fs) :=
      objRemove_append_right k pre _ _
        (fun p hp => ne_of_lt (hprefs p hp (k, v) (by simp)))
        (objRemove_cons_self k v fs)
    have hrec := diffO_roundtrip fs [] pre hfs' (by simp [jwfO])
      (fun p hp f hf => hprefs p hp f (by simp [hf])) (by simp)
    simp only [diffO, applyPatch, applyOp, removeAt, hrem, Option.map_some',
      Option.some_bind]
    exact hrec
  | (k₁, v₁) :: fs, (k₂, v₂) :: gs, pre, hfs, hgs, hprefs, hpregs => by
    obtain ⟨hv₁, hfs', hlt₁⟩ := jwfO_cons k₁ v₁ fs hfs
    obtain ⟨hv₂, hgs', hlt₂⟩ := jwfO_cons k₂ v₂ gs hgs
    by_cases hk : k₁ = k₂
    · subst hk
      have hget : objGet k₁ (pre ++ (k₁, v₁) :: fs) = some v₁ := by
        rw [objGet_append_right k₁ pre _
          (fun p hp => ne_of_lt (hprefs p hp (k₁, v₁) (by simp))),
          objGet_cons_self]
      have hlift := applyPatch_prepend_key k₁ (diffV v₁ v₂) (pre ++ (k₁, v₁) :: fs)
        v₁ v₂ hget (diffV_rootSafe v₁ v₂) (diffV_roundtrip v₁ v₂ hv₁ hv₂)
      have hset : objSet k₁ v₂ (pre ++ (k₁, v₁) :: fs) = pre ++ (k₁, v₂) :: fs := by
        rw [objSet_append_right k₁ v₂ pre _
          (fun p hp => ne_of_lt (hprefs p hp (k₁, v₁) (by simp))),
          objSet_cons_self]
      rw [hset] at hlift
      have hrec := diffO_roundtrip fs gs (pre ++ [(k₁, v₂)]) hfs' hgs'
        (fun p hp f hf => by
          rcases List.mem_append.mp hp with h1 | h1
          · exact hprefs p h1 f (by simp [hf])
          · obtain rfl : p = (k₁, v₂) := by simpa using h1
            exact hlt₁ f hf)
        (fun p hp g hg => by
          rcases List.mem_append.mp hp with h1 | h1
          · exact hpregs p h1 g (by simp [hg])
          · obtain rfl : p = (k₁, v₂) := by simpa using h1
            exact hlt₂ g hg)
      simp only [diffO, if_true]
      simp only [applyPatch_append, hlift, Option.some_bind]
      simpa using hrec
    · by_cases hlt : k₁ < k₂
      · have hrem : objRemove k₁ (pre ++ (k₁, v₁) :: fs) = some (pre ++ fs) :=
          objRemove_append_right k₁ pre _ _
            (fun p hp => ne_of_lt (hprefs p hp (k₁, v₁) (by simp)))
            (objRemove_cons_self k₁ v₁ fs)
        have hrec := diffO_roundtrip fs ((k₂, v₂) :: gs) pre hfs' hgs
          (fun p hp f hf => hprefs p hp f (by simp [hf])) hpregs
        simp only [diffO]
        rw [if_neg hk, if_pos hlt]
        simp only [applyPatch, applyOp, removeAt, hrem, Option.map_some',
          Option.some_bind]
        exact hrec
      · have hgt : k₂ < k₁ := lt_of_le_of_ne (le_of_not_lt hlt) fun h => hk h.symm
        have hins : objInsert k₂ v₂ (pre ++ (k₁, v₁) :: fs) =
            pre ++ (k₂, v₂) :: (k₁, v₁) :: fs :=
          objInsert_append k₂ v₂ pre ((k₁, v₁) :: fs)
            (fun p hp => hpregs p hp (k₂, v₂) (by simp))
            (fun p hp => by
              rcases List.mem_cons.mp hp with rfl | hp'
              · exact hgt
              · exact lt_trans hgt (hlt₁ p hp'))
        have hrec := diffO_roundtrip ((k₁, v₁) :: fs) gs (pre ++ [(k₂, v₂)]) hfs hgs'
          (fun p hp f hf => by
            rcases List.mem_append.mp hp with h1 | h1
            · exact hprefs p h1 f hf
            · obtain rfl : p = (k₂, v₂) := by simpa using h1
              rcases List.mem_cons.mp hf with rfl | hf'
              · exact hgt
              · exact lt_trans hgt (hlt₁ f hf'))
          (fun p hp g hg => by
            rcases List.mem_append.mp hp with h1 | h1
            · exact hpregs p h1 g (by simp [hg])
            · obtain rfl : p = (k₂, v₂) := by simpa using h1
              exact hlt₂ g hg)
        simp only [diffO]
        rw [if_neg hk, if_neg hlt]
        simp only [applyPatch, applyOp, addAt, hins, Option.some_bind]
        simpa using hrec

end

/-! ## Server run and client replay lemmas -/

theorem mapGet_mapRemove_of_none (k : String) :
    ∀ m : List (String × α), mapGet k m = none →
      mapGet k (mapRemove k m) = none
  | [], _ => rfl
  | (k', v') :: m, h => by
    by_cases hk : k = k'
    · rw [mapGet, if_pos hk] at h
      cases h
    · rw [mapGet, if_neg hk] at h
      simp only [mapRemove, if_neg hk, mapGet, if_neg hk]
      exact mapGet_mapRemove_of_none k m h

theorem serverRun_spec {T : Type} (encode : T → Json) (fs : List (T → T)) :
    ∀ s : ServerSignal T, s.json_value = encode s.value →
      (serverRun encode s fs).1.value = fs.foldl (fun v f => f v) s.value ∧
      (serverRun encode s fs).1.json_value =
          encode (fs.foldl (fun v f => f v) s.value) ∧
      (∀ u ∈ (serverRun encode s fs).2, u.name = s.name) ∧
      ((∀ t, jwf (encode t) = true) →
        applyPatches s.json_value
            ((serverRun encode s fs).2.map (fun u => u.patch)) =
          some (encode (fs.foldl (fun v f => f v) s.value))) := by
  induction fs with
  | nil =>
    intro s hinv
    refine ⟨by simp [serverRun], by simpa [serverRun] using hinv,
      by simp [serverRun], ?_⟩
    intro _
    simp [serverRun, applyPatches, hinv]
  | cons f fs ih =>
    intro s hinv
    have hstep : s.with' encode true f =
        ({ name := s.name, value := f s.value, json_value := encode (f s.value) },
         [ServerSignalUpdate.new_from_json s.name s.json_value (encode (f s.value))],
         Except.ok ()) := by
      simp [ServerSignal.with']
    have ihs := ih
      { name := s.name, value := f s.value, json_value := encode (f s.value) } rfl
    refine ⟨?_, ?_, ?_, ?_⟩
    · simp only [serverRun, hstep, List.foldl_cons]
      exact ihs.1
    · simp only [serverRun, hstep, List.foldl_cons]
      exact ihs.2.1
    · intro u hu
      simp only [serverRun, hstep] at hu
      rcases List.mem_cons.mp hu with rfl | hu'
      · rfl
      · exact ihs.2.2.1 u hu'
    · intro hwf
      have hrt := diffV_roundtrip s.json_value (encode (f s.value))
        (by rw [hinv]; exact hwf s.value) (hwf (f s.value))
      simp only [serverRun, hstep, List.map_cons, applyPatches,
        ServerSignalUpdate.new_from_json, hrt, Option.some_bind, List.foldl_cons]
      exact ihs.2.2.2 hwf

theorem onmessages_registered (name : String) (us : List ServerSignalUpdate) :
    ∀ (st : ServerSignalWebSocket) (doc d : Json),
      mapGet name st.state_signals = some doc →
      mapGet name st.delayed_updates = none →
      (∀ u ∈ us, u.name = name) →
      applyPatches doc (us.map (fun u => u.patch)) = some d →
      ∃ st' : ServerSignalWebSocket, onmessages st us = some st' ∧
        mapGet name st'.state_signals = some d ∧
        mapGet name st'.delayed_updates = none := by
  induction us with
  | nil =>
    intro st doc d hreg hdel _ hap
    obtain rfl : doc = d := by simpa [applyPatches] using hap
    exact ⟨st, rfl, hreg, hdel⟩
  | cons u us ih =>
    intro st doc d hreg hdel hnames hap
    have hn : u.name = name := hnames u (by simp)
    simp only [List.map_cons, applyPatches] at hap
    cases hp : applyPatch doc u.patch with
    | none => rw [hp] at hap; cases hap
    | some doc₁ =>
      rw [hp] at hap
      simp only [Option.some_bind] at hap
      have hstep : onmessage st (some u) =
          some ({ st with
                    state_signals := mapInsert name doc₁ st.state_signals
                    delayed_updates := mapRemove name st.delayed_updates }, []) := by
        simp [onmessage, hn, hreg, hdel, applyPatches, hp]
      obtain ⟨st', h1, h2, h3⟩ := ih
        { st with
            state_signals := mapInsert name doc₁ st.state_signals
            delayed_updates := mapRemove name st.delayed_updates }
        doc₁ d (mapGet_mapInsert_self name doc₁ st.state_signals)
        (mapGet_mapRemove_of_none name st.delayed_updates hdel)
        (fun u' hu' => hnames u' (by simp [hu'])) hap
      exact ⟨st', by simp [onmessages, hstep, h1], h2, h3⟩

/-! ## Claim theorems: the diff codec -/

/-- C1: for every pair of well-formed JSON values `(a, b)` (well-formed
meaning in the image of `serde_json::Value`: object keys strictly
increasing), applying the patch produced by
`ServerSignalUpdate::new_from_json` — that is, `json_patch::diff(a, b)` —
to `a` yields exactly `b`. -/
theorem c1_patch_roundtrip (name : String) (a b : Json)
    (ha : jwf a = true) (hb : jwf b = true) :
    applyPatch a (ServerSignalUpdate.new_from_json name a b).patch = some b := by
  simpa [ServerSignalUpdate.new_from_json] using diffV_roundtrip a b ha hb

theorem c1_witness :
    applyPatch (.obj [("items", .arr [.num 1, .num 2, .num 3])])
      (ServerSignalUpdate.new_from_json "sig"
        (.obj [("items", .arr [.num 1, .num 2, .num 3])])
        (.obj [("items", .arr [.num 1, .num 9])])).patch =
      some (.obj [("items", .arr [.num 1, .num 9])]) :=
  c1_patch_roundtrip "sig" _ _
    (by simp [jwf, jwfO, jwfL]) (by simp [jwf, jwfO, jwfL])

/-- C7: for every JSON value `a`, `diff(a, a)` produces an empty patch with
no operations, and applying that (empty) patch to `a` yields `a`
unchanged. -/
theorem c7_noop_diff (name : String) (a : Json) :
    (ServerSignalUpdate.new_from_json name a a).patch = [] ∧
      applyPatch a (ServerSignalUpdate.new_from_json name a a).patch = some a := by
  have h := diffV_self a
  constructor
  · simpa [ServerSignalUpdate.new_from_json] using h
  · simp [ServerSignalUpdate.new_from_json, h, applyPatch]

/-- C4: in general, the envelopes produced by consecutive successful
mutations, applied in arrival order to the initial replica encoding, yield
the encoding of the value obtained by applying the mutations directly in
that order to the initial snapshot; concretely, the `"counter"` channel
starting at `{value: 0}` with three `+1` mutations transmits three
envelopes which, replayed through the client `onmessage` handler on a
freshly registered `"counter"` replica at `{value: 0}`, leave the replica
at `{value: 3}`, equal to the server's final snapshot. -/
theorem c4_ordered_replay_matches_mutations
    {T : Type} (encode : T → Json) (fs : List (T → T)) (s : ServerSignal T)
    (hwf : ∀ t, jwf (encode t) = true) (hinv : s.json_value = encode s.value) :
    (applyPatches s.json_value
        ((serverRun encode s fs).2.map (fun u => u.patch)) =
      some (encode (fs.foldl (fun v f => f v) s.value))) ∧
      ((onmessages counterClient counterRun.2).bind
          (fun st => mapGet "counter" st.state_signals) = some (encCount 3) ∧
        counterRun.1.json_value = encCount 3 ∧
        counterRun.1.value = 3) := by
  have hwfc : ∀ n : Int, jwf (encCount n) = true := fun n => by
    simp [encCount, jwf, jwfO]
  have hs := serverRun_spec encCount [(· + 1), (· + 1), (· + 1)] counterServer rfl
  have hfold : [fun n : Int => n + 1, fun n => n + 1, fun n => n + 1].foldl
      (fun v f => f v) counterServer.value = 3 := by
    simp [counterServer, ServerSignal.new]
  have happ := hs.2.2.2 hwfc
  rw [hfold] at happ
  obtain ⟨st', h1, h2, h3⟩ := onmessages_registered "counter" counterRun.2
    counterClient (encCount 0) (encCount 3)
    (mapGet_mapInsert_self "counter" (encCount 0) wsEmpty.state_signals) rfl
    (fun u hu => hs.2.2.1 u hu) happ
  refine ⟨(serverRun_spec encode fs s hinv).2.2.2 hwf, ?_, ?_, ?_⟩
  · rw [show onmessages counterClient counterRun.2 = some st' from h1]
    simpa using h2
  · rw [show counterRun.1 = (serverRun encCount counterServer
      [(· + 1), (· + 1), (· + 1)]).1 from rfl]
    rw [hs.2.1, hfold]
  · rw [show counterRun.1 = (serverRun encCount counterServer
      [(· + 1), (· + 1), (· + 1)]).1 from rfl]
    rw [hs.1, hfold]

theorem c4_witness :
    applyPatches counterServer.json_value
        ((serverRun encCount counterServer
          [(· + 1), (· + 1), (· + 1)]).2.map (fun u => u.patch)) =
      some (encCount ([fun n : Int => n + 1, fun n => n + 1, fun n => n + 1].foldl
        (fun v f => f v) counterServer.value)) :=
  (c4_ordered_replay_matches_mutations encCount [(· + 1), (· + 1), (· + 1)]
    counterServer (fun n => by simp [encCount, jwf, jwfO]) rfl).1

end ServerSignalSpec
